import Mathlib

/-!
Verification of `src/src/convolve.c`: linear convolution of two real-valued
finite sequences, with three strategies (direct windowed summation,
single-shot transform-domain convolution, block-wise overlap-save) and an
algorithm selector.

Modelling conventions:
* float values are modelled as exact rationals (`ℚ`); the claims under
  study are about exact arithmetic / exact-DFT behaviour;
* C arrays are Lean lists; a read from `x` at an index past the end of the
  array (a buffer overread in C) is modelled by an explicit `junk`
  valuation, so that out-of-bounds accesses are visible in the semantics;
* the external transform backend (fftf) is out of scope of the repository
  and is modelled as an exact DFT, as the spec directs: the composite
  "forward transform both operands, pointwise complex multiply, inverse
  transform" of size L equals L times the circular convolution;
* assertions become `Option`: an initializer whose `assert` fails returns
  `none`.
-/

namespace Convolve

/-! ## Direct convolver: `convolve_simd` (convolve.c lines 40-101) -/

/-- Scalar inner loop of `convolve_simd`: `sum += h[m] * x[n - m]` for
`m` in `[beg, e)`. -/
def innerSum (x h : List ℚ) (n beg e : ℕ) : ℚ :=
  ∑ m ∈ Finset.Ico beg e, h.getD m 0 * x.getD (n - m) 0

/-- One AVX chunk of the vectorized loop: lane `k` holds
`h[m + k] * x[n - (m + k)]`.  The code loads 8 floats from `x + n - m - 7`
and reverses them with two permutes so that lane `k` aligns with `h[m+k]`. -/
def chunkLanes (x h : List ℚ) (n m : ℕ) : Fin 8 → ℚ :=
  fun k => h.getD (m + k.val) 0 * x.getD (n - (m + k.val)) 0

/-- The 8-lane vector accumulator after `c` full chunks starting at `beg`
(the loop `for (m = beg; m < simdEnd; m += 8) accum += xvec * hvec`). -/
def accumVec (x h : List ℚ) (n beg : ℕ) : ℕ → Fin 8 → ℚ
  | 0 => fun _ => 0
  | c + 1 => fun k => accumVec x h n beg c k + chunkLanes x h n (beg + 8 * c) k

/-- Semantics of the `_mm256_hadd_ps` intrinsic on 8 packed floats. -/
def mm256_hadd (a b : Fin 8 → ℚ) : Fin 8 → ℚ :=
  ![a 0 + a 1, a 2 + a 3, b 0 + b 1, b 2 + b 3,
    a 4 + a 5, a 6 + a 7, b 4 + b 5, b 6 + b 7]

/-- Horizontal reduction used by `convolve_simd`: two `hadd`s, then the sum
of lanes 0 and 4. -/
def haddReduce (a : Fin 8 → ℚ) : ℚ :=
  let a1 := mm256_hadd a a
  let a2 := mm256_hadd a1 a1
  a2 0 + a2 4

/-- The vectorized (`simd != 0`, AVX) branch of `convolve_simd` for one
output index `n`: full 8-wide chunks over `[beg, simdEnd)` with
`simdEnd = beg + ((e - beg) & ~7)`, horizontal reduction to a scalar, then
the scalar remainder loop over `[simdEnd, e)`. -/
def simdSum (x h : List ℚ) (n beg e : ℕ) : ℚ :=
  let d := e - beg
  let simdEnd := beg + (d - d % 8)
  haddReduce (accumVec x h n beg (d / 8)) + innerSum x h n simdEnd e

/-- `convolve_simd` (convolve.c lines 40-101).  For each
`n < xLength + hLength - 1` the bounds are
`beg = (n < xLength ? 0 : n - xLength + 1)` — which is `n + 1 - xLength`
in truncated subtraction — and `end = min(n + 1, hLength)`. -/
def convolve_simd (simd : Bool) (x h : List ℚ) : List ℚ :=
  (List.range (x.length + h.length - 1)).map fun n =>
    let beg := n + 1 - x.length
    let e := min (n + 1) h.length
    if simd then simdSum x h n beg e else innerSum x h n beg e

lemma accumVec_eq (x h : List ℚ) (n beg : ℕ) :
    ∀ c, accumVec x h n beg c =
      fun k => ∑ j ∈ Finset.range c, chunkLanes x h n (beg + 8 * j) k := by
  intro c
  induction c with
  | zero => funext k; simp [accumVec]
  | succ c ih => funext k; simp [accumVec, ih, Finset.sum_range_succ]

lemma haddReduce_explicit (a : Fin 8 → ℚ) :
    haddReduce a = ((a 0 + a 1) + (a 2 + a 3)) + ((a 4 + a 5) + (a 6 + a 7)) :=
  rfl

lemma haddReduce_eq_sum (a : Fin 8 → ℚ) :
    haddReduce a = ∑ k : Fin 8, a k := by
  rw [haddReduce_explicit, Fin.sum_univ_eight]
  ring

lemma chunk_sum_eq (x h : List ℚ) (n m : ℕ) :
    ∑ k : Fin 8, chunkLanes x h n m k = innerSum x h n m (m + 8) := by
  rw [innerSum, Finset.sum_Ico_eq_sum_range]
  simp only [Nat.add_sub_cancel_left]
  exact Fin.sum_univ_eq_sum_range
    (fun j => h.getD (m + j) 0 * x.getD (n - (m + j)) 0) 8

lemma innerSum_split (x h : List ℚ) (n a b c : ℕ) (hab : a ≤ b) (hbc : b ≤ c) :
    innerSum x h n a c = innerSum x h n a b + innerSum x h n b c := by
  rw [innerSum, innerSum, innerSum, ← Finset.sum_Ico_consecutive _ hab hbc]

lemma hadd_accum_eq (x h : List ℚ) (n beg : ℕ) :
    ∀ c, haddReduce (accumVec x h n beg c) = innerSum x h n beg (beg + 8 * c) := by
  intro c
  induction c with
  | zero => simp [haddReduce_eq_sum, accumVec, innerSum]
  | succ c ih =>
    have hsplit : innerSum x h n beg (beg + 8 * (c + 1)) =
        innerSum x h n beg (beg + 8 * c) +
          innerSum x h n (beg + 8 * c) (beg + 8 * c + 8) := by
      have := innerSum_split x h n beg (beg + 8 * c) (beg + 8 * c + 8)
        (by omega) (by omega)
      rw [show beg + 8 * (c + 1) = beg + 8 * c + 8 by ring]
      exact this
    rw [hsplit, ← ih, ← chunk_sum_eq x h n (beg + 8 * c)]
    rw [haddReduce_eq_sum, haddReduce_eq_sum]
    simp [accumVec, accumVec_eq, Finset.sum_add_distrib]

/-- The per-index vectorized sum agrees with the scalar sum: full chunks plus
the scalar remainder cover exactly `[beg, e)`. -/
lemma simdSum_eq_innerSum (x h : List ℚ) (n beg e : ℕ) (hbe : beg ≤ e) :
    simdSum x h n beg e = innerSum x h n beg e := by
  rw [simdSum]
  have hmod : (e - beg) - (e - beg) % 8 = 8 * ((e - beg) / 8) := by omega
  rw [hmod, hadd_accum_eq]
  rw [← innerSum_split x h n beg (beg + 8 * ((e - beg) / 8)) e (by omega) (by omega)]

/-- C8: the vectorized path of `convolve_simd` (full vector-width chunks
with `x` read in reverse stride, reduced horizontally, plus a scalar
remainder loop) computes exactly the same output as the pure scalar path,
over exact arithmetic. -/
theorem convolve_simd_vectorized_eq_scalar (x h : List ℚ)
    (hx : 0 < x.length) (hh : 0 < h.length) :
    convolve_simd true x h = convolve_simd false x h := by
  unfold convolve_simd
  apply List.map_congr_left
  intro n hn
  have hn' : n < x.length + h.length - 1 := List.mem_range.mp hn
  simp only [if_pos, if_neg, Bool.true_eq_false, Bool.false_eq_true,
    ite_true, ite_false]
  exact simdSum_eq_innerSum x h n _ _ (by omega)

/-- Witness for C8 at a concrete input exercising a full 8-wide chunk. -/
theorem convolve_simd_vectorized_eq_scalar_witness :
    convolve_simd true [1, 2, 3, 4, 5, 6, 7, 8, 9, 10]
        [1, -1, 2, -2, 3, -3, 4, -4, 5] =
      convolve_simd false [1, 2, 3, 4, 5, 6, 7, 8, 9, 10]
        [1, -1, 2, -2, 3, -3, 4, -4, 5] :=
  convolve_simd_vectorized_eq_scalar _ _ (by decide) (by decide)

/-- C1: `convolve_simd` writes, for each `n` in `[0, N+M-1)`,
`out[n] = Σ over m in [max(0, n-N+1), min(n, M-1)] of h[m]·x[n-m]`
(stated with truncated natural subtraction, so `max 0 (n+1-N)` is the C
value `max(0, n-N+1)`); and on `x=[1,2,3]`, `h=[0,1,0.5]` it produces
`out=[0, 1, 2.5, 4, 1.5]`. -/
theorem convolve_simd_direct_spec :
    (∀ (simd : Bool) (x h : List ℚ), 0 < x.length → 0 < h.length →
      ∀ n, n < x.length + h.length - 1 →
        (convolve_simd simd x h).getD n 0 =
          ∑ m ∈ Finset.Icc (max 0 (n + 1 - x.length)) (min n (h.length - 1)),
            h.getD m 0 * x.getD (n - m) 0) ∧
    convolve_simd false [1, 2, 3] [0, 1, 1/2] = [0, 1, 5/2, 4, 3/2] := by
  constructor
  · intro simd x h hx hh n hn
    have hlen : (convolve_simd simd x h).length = x.length + h.length - 1 := by
      simp [convolve_simd]
    have hn' : n < (convolve_simd simd x h).length := by omega
    rw [List.getD_eq_getElem _ _ hn']
    unfold convolve_simd
    rw [List.getElem_map, List.getElem_range]
    have hicc : Finset.Icc (max 0 (n + 1 - x.length)) (min n (h.length - 1)) =
        Finset.Ico (n + 1 - x.length) (min (n + 1) h.length) := by
      rw [← Nat.Ico_succ_right]
      congr 1
      · omega
      · omega
    rw [hicc]
    cases simd with
    | false => simp only [ite_false, Bool.false_eq_true, innerSum]
    | true =>
      simp only [ite_true]
      rw [simdSum_eq_innerSum x h n _ _ (by omega), innerSum]
  · show (List.range 5).map _ = _
    norm_num [List.range_succ, innerSum, Finset.sum_Ico_eq_sum_range,
      Finset.sum_range_succ]

/-- Witness for C1: the general formula evaluated at the literal example,
output index 3. -/
theorem convolve_simd_direct_spec_witness :
    (convolve_simd true [1, 2, 3] [0, 1, 1/2]).getD 3 0 =
      ∑ m ∈ Finset.Icc (max 0 (3 + 1 - ([1, 2, 3] : List ℚ).length))
          (min 3 (([0, 1, 1/2] : List ℚ).length - 1)),
        ([0, 1, 1/2] : List ℚ).getD m 0 * ([1, 2, 3] : List ℚ).getD (3 - m) 0 :=
  convolve_simd_direct_spec.1 true [1, 2, 3] [0, 1, 1/2]
    (by decide) (by decide) 3 (by decide)

/-! ## Power-of-two padding loops

Both initializers grow a size to a power of two with the idiom
`while (v >>= 1) log++;  v = 1 << log;`.  The loop is modelled with
structural fuel (the initial value bounds the iteration count), so the
definition evaluates by kernel reduction. -/

/-- The C loop `while (v >>= 1) log++` run with `fuel ≥ v` steps:
shift right, and if the shifted value is nonzero, bump `lg` and repeat. -/
def shiftLogAux : ℕ → ℕ → ℕ → ℕ
  | 0, _, lg => lg
  | fuel + 1, v, lg => if v / 2 = 0 then lg else shiftLogAux fuel (v / 2) (lg + 1)

/-- `shiftLog v lg0` is the final value of `log` after
`log = lg0; while (v >>= 1) log++;`. -/
def shiftLog (v lg0 : ℕ) : ℕ := shiftLogAux v v lg0

lemma shiftLogAux_eq (fuel : ℕ) :
    ∀ v lg0, 0 < v → v ≤ fuel → shiftLogAux fuel v lg0 = lg0 + Nat.log 2 v := by
  induction fuel with
  | zero => intro v lg0 hv hle; omega
  | succ fuel ih =>
    intro v lg0 hv hle
    rw [shiftLogAux]
    by_cases h1 : v / 2 = 0
    · have hv1 : v = 1 := by omega
      simp [h1, hv1]
    · rw [if_neg h1, ih (v / 2) (lg0 + 1) (by omega) (by omega)]
      have hlog : Nat.log 2 v = Nat.log 2 (v / 2) + 1 := by
        have hpos : 0 < Nat.log 2 v := Nat.log_pos (by norm_num) (by omega)
        have := Nat.log_div_base 2 v
        omega
      omega

lemma shiftLog_eq (v lg0 : ℕ) (hv : 0 < v) :
    shiftLog v lg0 = lg0 + Nat.log 2 v :=
  shiftLogAux_eq v v lg0 hv le_rfl

/-! ## Algorithm selector: ` convolve_initialize` (convolve.c lines 328-366) -/

inductive ConvolutionAlgorithm where
  | kConvolutionAlgorithmFFT
  | kConvolutionAlgorithmOverlapSave
  | kConvolutionAlgorithmBruteForce
  deriving DecidableEq, Repr

/-- The "medium" threshold for the single-shot transform selection:
350 on the default build, 50 under narrower vector widths (`__ARM_NEON__`). -/
def mediumThreshold (neon : Bool) : ℕ := if neon then 50 else 350

/-- The pure selection policy of ` convolve_initialize`:
`xLength > 2*hLength` picks OverlapSave above 200 else BruteForce;
otherwise FFT above the medium threshold else BruteForce. -/
def convolve_initialize_algorithm (neon : Bool) (xLength hLength : ℕ) :
    ConvolutionAlgorithm :=
  if xLength > hLength * 2 then
    if xLength > 200 then ConvolutionAlgorithm.kConvolutionAlgorithmOverlapSave
    else ConvolutionAlgorithm.kConvolutionAlgorithmBruteForce
  else
    if xLength > mediumThreshold neon then ConvolutionAlgorithm.kConvolutionAlgorithmFFT
    else ConvolutionAlgorithm.kConvolutionAlgorithmBruteForce

/-! ## Overlap-save initializer (convolve.c lines 103-146) -/

/-- `L` in ` convolve_overlap_save_initialize`:
`int L = M; int log = 2; while (L >>= 1) log++; L = (1 << log);`. -/
def osL (M : ℕ) : ℕ := 2 ^ shiftLog M 2

structure ConvolutionOverlapSaveHandle where
  x_length : ℕ
  h_length : ℕ
  reverse : Bool
  L : ℕ
  deriving DecidableEq, Repr

/-- ` convolve_overlap_save_initialize` (convolve.c lines 103-146).  Its
`assert`s become `none`: `assert(hLength < xLength / 2)` (C integer
division), `assert(xLength > 0)`, `assert(hLength > 0)`. -/
def convolve_overlap_save_initialize (xLength hLength : ℕ) :
    Option ConvolutionOverlapSaveHandle :=
  if hLength < xLength / 2 ∧ 0 < xLength ∧ 0 < hLength then
    some ⟨xLength, hLength, false, osL hLength⟩
  else none

/-! ## Single-shot FFT initializer (convolve.c lines 231-278) -/

/-- The transform size of ` convolve_fft_initialize`:
`M = xLength + hLength - 1`, and if `M & (M - 1) != 0` (not a power of
two), `log = 1; while (M >>= 1) log++; M = 1 << log;`. -/
def fftM (xLength hLength : ℕ) : ℕ :=
  let M := xLength + hLength - 1
  if M &&& (M - 1) ≠ 0 then 2 ^ shiftLog M 1 else M

structure ConvolutionFFTHandle where
  M : ℕ
  x_length : ℕ
  h_length : ℕ
  reverse : Bool
  /-- the per-buffer float counts of the two `mallocf(M + 2)` input buffers
  `X` and `H` gathered in `handle.inputs` -/
  input_lengths : List ℕ
  deriving DecidableEq, Repr

/-- ` convolve_fft_initialize` (convolve.c lines 231-278): asserts both
lengths positive, computes the padded transform size, allocates the two
`M + 2`-float buffers. -/
def convolve_fft_initialize (xLength hLength : ℕ) :
    Option ConvolutionFFTHandle :=
  if 0 < hLength ∧ 0 < xLength then
    some ⟨fftM xLength hLength, xLength, hLength, false,
      [fftM xLength hLength + 2, fftM xLength hLength + 2]⟩
  else none

/-! ## Full initializer with dispatch (convolve.c lines 328-366) -/

structure ConvolutionHandle where
  x_length : ℕ
  h_length : ℕ
  algorithm : ConvolutionAlgorithm
  os : Option ConvolutionOverlapSaveHandle
  fft : Option ConvolutionFFTHandle
  deriving DecidableEq, Repr

/-- ` convolve_initialize`: records the lengths, runs the selection policy,
and builds the per-algorithm payload; a failing `assert` inside a payload
initializer aborts (modelled as `none`).  The BruteForce branch performs no
checks at all. -/
def convolve_initialize (neon : Bool) (xLength hLength : ℕ) :
    Option ConvolutionHandle :=
  match convolve_initialize_algorithm neon xLength hLength with
  | ConvolutionAlgorithm.kConvolutionAlgorithmOverlapSave =>
      ( convolve_overlap_save_initialize xLength hLength).map fun os =>
        ⟨xLength, hLength, ConvolutionAlgorithm.kConvolutionAlgorithmOverlapSave,
          some os, none⟩
  | ConvolutionAlgorithm.kConvolutionAlgorithmFFT =>
      ( convolve_fft_initialize xLength hLength).map fun fft =>
        ⟨xLength, hLength, ConvolutionAlgorithm.kConvolutionAlgorithmFFT,
          none, some fft⟩
  | ConvolutionAlgorithm.kConvolutionAlgorithmBruteForce =>
      some ⟨xLength, hLength, ConvolutionAlgorithm.kConvolutionAlgorithmBruteForce,
        none, none⟩

/-! ## The `(M & (M - 1)) != 0` power-of-two test -/

lemma pow_land_pred_eq_zero (k : ℕ) : 2 ^ k &&& (2 ^ k - 1) = 0 := by
  apply Nat.eq_of_testBit_eq
  intro i
  rw [Nat.testBit_land, Nat.zero_testBit, Nat.testBit_two_pow_sub_one]
  by_cases hik : k = i
  · subst hik; simp
  · rw [Nat.testBit_two_pow_of_ne hik]; simp

lemma testBit_log_self {a : ℕ} (ha : 0 < a) :
    a.testBit (Nat.log 2 a) = true := by
  rw [Nat.testBit_to_div_mod]
  have h1 : 2 ^ Nat.log 2 a ≤ a := Nat.pow_log_le_self 2 (by omega)
  have h2 : a < 2 ^ (Nat.log 2 a).succ := Nat.lt_pow_succ_log_self (by norm_num) a
  have h2' : a < 2 ^ Nat.log 2 a * 2 := by
    calc a < 2 ^ (Nat.log 2 a).succ := h2
      _ = 2 ^ Nat.log 2 a * 2 := pow_succ 2 _
  have hdiv : a / 2 ^ Nat.log 2 a = 1 :=
    Nat.div_eq_of_lt_le (by rw [one_mul]; exact h1)
      (by rw [show Nat.succ 1 * 2 ^ Nat.log 2 a = 2 ^ Nat.log 2 a * 2 by ring]
          exact h2')
  simp [hdiv]

lemma land_pred_eq_zero_pow :
    ∀ M, 0 < M → M &&& (M - 1) = 0 → ∃ k, M = 2 ^ k := by
  intro M
  induction M using Nat.strong_induction_on with
  | _ M ih =>
    intro hM h0
    have hbit : ∀ i, (M.testBit i && (M - 1).testBit i) = false := by
      intro i
      rw [← Nat.testBit_land, h0, Nat.zero_testBit]
    rcases Nat.lt_or_ge M 2 with h2 | h2
    · exact ⟨0, by omega⟩
    rcases Nat.even_or_odd M with he | ho
    · -- M even: the same bit pattern shifted right one is again of the form
      -- m & (m-1) == 0, recurse on m = M / 2.
      have hm : 0 < M / 2 := by omega
      have hdvd : M % 2 = 0 := by
        rcases he with ⟨r, hr⟩; omega
      have hstep : ∀ i, ((M / 2).testBit i && (M / 2 - 1).testBit i) = false := by
        intro i
        have hd : (M - 1) / 2 = M / 2 - 1 := by omega
        have := hbit (i + 1)
        rwa [Nat.testBit_succ, Nat.testBit_succ, hd] at this
      have hz : M / 2 &&& (M / 2 - 1) = 0 := by
        apply Nat.eq_of_testBit_eq
        intro i
        rw [Nat.testBit_land, Nat.zero_testBit, hstep]
      obtain ⟨k, hk⟩ := ih (M / 2) (by omega) hm hz
      exact ⟨k + 1, by rw [pow_succ]; omega⟩
    · -- M odd and ≥ 3: bit 0 of M is set, and the top bit of M / 2 ≥ 1 is a
      -- set bit shared by M and M - 1, contradicting m & (m-1) == 0.
      exfalso
      have hmod : M % 2 = 1 := by
        rcases ho with ⟨r, hr⟩; omega
      have ha : 0 < M / 2 := by omega
      set i0 := Nat.log 2 (M / 2) with hi0
      have hMbit : M.testBit (i0 + 1) = true := by
        rw [Nat.testBit_succ]; exact testBit_log_self ha
      have hM1bit : (M - 1).testBit (i0 + 1) = true := by
        rw [Nat.testBit_succ]
        have : (M - 1) / 2 = M / 2 := by omega
        rw [this]; exact testBit_log_self ha
      have := hbit (i0 + 1)
      rw [hMbit, hM1bit] at this
      simp at this

/-- C10: ` convolve_fft_initialize` sets the transform size to the smallest
power of two ≥ `outLen = xLength + hLength - 1` (keeping `outLen` itself
when it is already a power of two), and allocates exactly two real buffers
each of `transformSize + 2` floats. -/
theorem convolve_fft_initialize_transform_size (xLength hLength : ℕ)
    (hx : 0 < xLength) (hh : 0 < hLength) :
    (∃ k, fftM xLength hLength = 2 ^ k) ∧
    xLength + hLength - 1 ≤ fftM xLength hLength ∧
    (∀ s, (∃ j, s = 2 ^ j) → xLength + hLength - 1 ≤ s →
      fftM xLength hLength ≤ s) ∧
    convolve_fft_initialize xLength hLength =
      some ⟨fftM xLength hLength, xLength, hLength, false,
        [fftM xLength hLength + 2, fftM xLength hLength + 2]⟩ := by
  have hinit : convolve_fft_initialize xLength hLength =
      some ⟨fftM xLength hLength, xLength, hLength, false,
        [fftM xLength hLength + 2, fftM xLength hLength + 2]⟩ := by
    rw [ convolve_fft_initialize, if_pos ⟨hh, hx⟩]
  set M0 := xLength + hLength - 1 with hM0
  have hM0pos : 0 < M0 := by omega
  have hunf : fftM xLength hLength =
      if M0 &&& (M0 - 1) ≠ 0 then 2 ^ shiftLog M0 1 else M0 := rfl
  by_cases hc : M0 &&& (M0 - 1) ≠ 0
  · -- outLen is not a power of two: the loop yields 2 ^ (log2 outLen + 1)
    have hnotpow : ∀ k, M0 ≠ 2 ^ k := by
      intro k hk
      exact hc (hk ▸ pow_land_pred_eq_zero k)
    have hval : fftM xLength hLength = 2 ^ (1 + Nat.log 2 M0) := by
      rw [hunf, if_pos hc, shiftLog_eq M0 1 hM0pos]
    refine ⟨⟨1 + Nat.log 2 M0, hval⟩, ?_, ?_, hinit⟩
    · rw [hval]
      have := Nat.lt_pow_succ_log_self (b := 2) (by norm_num) M0
      calc M0 ≤ 2 ^ ((Nat.log 2 M0).succ) := le_of_lt this
        _ = 2 ^ (1 + Nat.log 2 M0) := by rw [Nat.succ_eq_add_one, Nat.add_comm]
    · rintro s ⟨j, rfl⟩ hs
      rw [hval]
      have hj : Nat.log 2 M0 < j := by
        by_contra hle
        have h1 : 2 ^ j ≤ 2 ^ Nat.log 2 M0 :=
          Nat.pow_le_pow_right (by norm_num) (by omega)
        have h2 : 2 ^ Nat.log 2 M0 ≤ M0 := Nat.pow_log_le_self 2 (by omega)
        exact hnotpow j (by omega)
      exact Nat.pow_le_pow_right (by norm_num) (by omega)
  · -- outLen already a power of two: kept as is
    have hval : fftM xLength hLength = M0 := by rw [hunf, if_neg hc]
    push_neg at hc
    exact ⟨hval ▸ land_pred_eq_zero_pow M0 hM0pos hc, hval ▸ le_rfl,
      fun s _ hs => hval ▸ hs, hinit⟩

/-- Witness for C10 at xLength = 3, hLength = 2 (outLen 4, already a power
of two). -/
theorem convolve_fft_initialize_transform_size_witness :
    (∃ k, fftM 3 2 = 2 ^ k) ∧
    3 + 2 - 1 ≤ fftM 3 2 ∧
    (∀ s, (∃ j, s = 2 ^ j) → 3 + 2 - 1 ≤ s → fftM 3 2 ≤ s) ∧
    convolve_fft_initialize 3 2 =
      some ⟨fftM 3 2, 3, 2, false, [fftM 3 2 + 2, fftM 3 2 + 2]⟩ :=
  convolve_fft_initialize_transform_size 3 2 (by decide) (by decide)

/-- C5: the selection policy as specified — OverlapSave iff
`xLength > 2·hLength` and `xLength > 200`; SingleShotTransform iff
`xLength ≤ 2·hLength` and `xLength` exceeds the medium threshold
(350 default build, 50 on narrower vector widths); Direct otherwise. -/
theorem convolve_initialize_selects (neon : Bool) (xLength hLength : ℕ)
    (hx : 0 < xLength) (hh : 0 < hLength) :
    (convolve_initialize_algorithm neon xLength hLength =
        ConvolutionAlgorithm.kConvolutionAlgorithmOverlapSave ↔
      xLength > 2 * hLength ∧ xLength > 200) ∧
    (convolve_initialize_algorithm neon xLength hLength =
        ConvolutionAlgorithm.kConvolutionAlgorithmFFT ↔
      xLength ≤ 2 * hLength ∧ xLength > mediumThreshold neon) ∧
    (convolve_initialize_algorithm neon xLength hLength =
        ConvolutionAlgorithm.kConvolutionAlgorithmBruteForce ↔
      ¬(xLength > 2 * hLength ∧ xLength > 200) ∧
      ¬(xLength ≤ 2 * hLength ∧ xLength > mediumThreshold neon)) := by
  unfold convolve_initialize_algorithm
  split_ifs with h1 h2 h3 <;>
    refine ⟨⟨fun he => ?_, fun hc => ?_⟩, ⟨fun he => ?_, fun hc => ?_⟩,
      ⟨fun he => ?_, fun hc => ?_⟩⟩ <;>
    first
      | rfl
      | omega
      | (exfalso; revert he; decide)
      | (exfalso; omega)

/-- Witness for C5 at xLength = 300, hLength = 10 (OverlapSave region). -/
theorem convolve_initialize_selects_witness :
    convolve_initialize_algorithm false 300 10 =
      ConvolutionAlgorithm.kConvolutionAlgorithmOverlapSave :=
  ((convolve_initialize_selects false 300 10 (by decide) (by decide)).1).mpr
    (by decide)

/-- C4 (code bug): with `xLength = 201`, `hLength = 100` the selector picks
OverlapSave (201 > 200 and 201 > 2·100), yet
` convolve_overlap_save_initialize`'s first assertion
`hLength < xLength / 2` evaluates `100 < 201/2 = 100` under C integer
division and fires, so the whole initialization aborts. -/
theorem convolve_initialize_overlap_save_assert_fires :
    convolve_initialize_algorithm false 201 100 =
      ConvolutionAlgorithm.kConvolutionAlgorithmOverlapSave ∧
    convolve_overlap_save_initialize 201 100 = none ∧
    convolve_initialize false 201 100 = none := by
  refine ⟨by decide, ?_, ?_⟩ <;>
    simp [ convolve_overlap_save_initialize, convolve_initialize,
      convolve_initialize_algorithm, mediumThreshold]

/-- Counterexample to C6: ` convolve_initialize` with `xLength = 0`,
`hLength = 1` selects BruteForce and returns a handle with no
precondition check at all (the zero-length asserts live only in the
payload initializers and in `convolve_simd`, which runs at execute time). -/
theorem convolve_initialize_zero_length_accepted :
    convolve_initialize false 0 1 =
      some ⟨0, 1, ConvolutionAlgorithm.kConvolutionAlgorithmBruteForce,
        none, none⟩ := by
  simp [ convolve_initialize, convolve_initialize_algorithm, mediumThreshold]

/-- C6 amended: a zero `xLength` or `hLength` makes ` convolve_initialize`
fail exactly when the selector routes to a transform-based variant; when it
selects BruteForce (in particular whenever `xLength = 0`), initialization
succeeds unchecked. -/
theorem convolve_initialize_zero_length_iff (neon : Bool) (xLength hLength : ℕ)
    (h0 : xLength = 0 ∨ hLength = 0) :
    ( convolve_initialize neon xLength hLength = none ↔
      convolve_initialize_algorithm neon xLength hLength ≠
        ConvolutionAlgorithm.kConvolutionAlgorithmBruteForce) := by
  unfold convolve_initialize convolve_initialize_algorithm mediumThreshold
    convolve_overlap_save_initialize convolve_fft_initialize
  rcases h0 with h0 | h0 <;> subst h0 <;>
    split_ifs <;> simp_all <;> omega

/-- Witness for C6 (amended) at xLength = 0, hLength = 1. -/
theorem convolve_initialize_zero_length_iff_witness :
    convolve_initialize false 0 1 = none ↔
      convolve_initialize_algorithm false 0 1 ≠
        ConvolutionAlgorithm.kConvolutionAlgorithmBruteForce :=
  convolve_initialize_zero_length_iff false 0 1 (Or.inl rfl)

/-! ## Overlap-save execution: `convolve_overlap_save` (convolve.c lines 156-229) -/

/-- A read of `x[i]`: in bounds it is the stored sample; past the end it is
whatever memory happens to follow the array (a C buffer overread), modelled
by the explicit valuation `junk`. -/
def xRead (x : List ℚ) (junk : ℕ → ℚ) (i : ℕ) : ℚ :=
  if i < x.length then x.getD i 0 else junk i

/-- Modelled from the spec: `rmemcpyf(dst, src, n)` from
`inc/simd/arithmetic.h` (not under src/) copies `n` floats in reversed
sample order, `dst[j] = src[n - 1 - j]`. -/
def rmemcpyf (h : List ℚ) (n : ℕ) : List ℚ :=
  (List.range n).map fun j => h.getD (n - 1 - j) 0

/-- The kernel copied into `fft_boiler_plate`: `rmemcpyf` when the handle's
reverse flag is set, plain `memcpy` otherwise (convolve.c lines 167-171). -/
def osKernel (reverse : Bool) (h : List ℚ) (M : ℕ) (m : ℕ) : ℚ :=
  if reverse then (rmemcpyf h M).getD m 0 else h.getD m 0

/-- The copied kernel after `memsetf(boiler + hLength, 0.f, L - hLength)`:
`h` (or its reversal) zero-padded to the block size. -/
def osPaddedKernel (reverse : Bool) (h : List ℚ) (M : ℕ) (m : ℕ) : ℚ :=
  if m < M then osKernel reverse h M m else 0

/-- Contents of `fft_boiler_plate[j]`, `0 ≤ j < L`, before the forward
transform of the block starting at output index `i`
(convolve.c lines 185-197):
* `i = 0`: `M - 1` zeros, then `step` samples copied from `x` — the copy
  length is `step` unconditionally, so it reads past the end of `x`
  whenever `step > xLength`;
* `i > 0` and `i + step ≤ xLength`: `L` samples from `x + i - (M - 1)`;
* `i > 0` otherwise: `cl = xLength - i + M - 1` samples from
  `x + i - (M - 1)`, then `L - cl` zeros. -/
def osBoiler (x : List ℚ) (junk : ℕ → ℚ) (M L step i : ℕ) (j : ℕ) : ℚ :=
  if i = 0 then
    if j < M - 1 then 0 else xRead x junk (j - (M - 1))
  else if i + step ≤ x.length then
    xRead x junk (i - (M - 1) + j)
  else
    if j < x.length + (M - 1) - i then xRead x junk (i - (M - 1) + j) else 0

/-- Modelled from the spec: the external transform backend (fftf) is an
exact DFT.  The code's per-block composite — forward real transform of the
boiler plate, pointwise spectral multiplication by the stored kernel
spectrum `H` (`complex_multiply` / `complex_multiply_na` over the
`(re, im)` pairs including the top-frequency coefficient), unnormalized
inverse real transform — then equals `L` times the circular convolution of
the block contents `a` with the padded kernel `b`. -/
def os_transform_multiply_inverse (L : ℕ) (a b : ℕ → ℚ) (k : ℕ) : ℚ :=
  (L : ℚ) * ∑ m ∈ Finset.range L, b m * a ((k + L - m) % L)

/-- One output sample of `convolve_overlap_save`.  Sample `n` is written by
the block whose start index is `i = step * (n / step)` (the loop visits
`i = 0, step, 2·step, …` and copies `result[i .. i + step)`, truncated on
the final block); within that block, `result[n]` receives boiler-plate
position `M - 1 + (n - i)` after the inverse transform, scaled by `1/L`
(`real_multiply_scalar`). -/
def osOutSample (x h : List ℚ) (junk : ℕ → ℚ) (M L : ℕ) (reverse : Bool)
    (n : ℕ) : ℚ :=
  let step := L - (M - 1)
  let i := step * (n / step)
  let k := M - 1 + (n - i)
  (1 / (L : ℚ)) *
    os_transform_multiply_inverse L (osBoiler x junk M L step i)
      (osPaddedKernel reverse h M) k

/-- `convolve_overlap_save` (convolve.c lines 156-229): per-block
transform convolution, discarding the first `M - 1` aliased samples of
every block. -/
def convolve_overlap_save (handle : ConvolutionOverlapSaveHandle)
    (x h : List ℚ) (junk : ℕ → ℚ) : List ℚ :=
  (List.range (handle.x_length + handle.h_length - 1)).map fun n =>
    osOutSample x h junk handle.h_length handle.L handle.reverse n

/-- Pointwise analysis of the boiler-plate read `boiler[(M-1) + (n-i) - m]`
performed by output sample `n` for kernel tap `m`: under the block-loop
invariants, and provided `step ≤ xLength` so that the first block's copy
stays inside `x`, it is exactly the sample `x[n - m]` of the zero-extended
signal that the direct convolution reads. -/
lemma osBoiler_value (x : List ℚ) (junk : ℕ → ℚ) (M L step n i m : ℕ)
    (hM : 0 < M) (hMstep : M + 2 ≤ step) (hLstep : L = step + (M - 1))
    (hstepN : step ≤ x.length) (hn : n < x.length + M - 1) (hm : m < M)
    (hin : i ≤ n) (hlt : n - i < step) (hi : i = 0 ∨ step ≤ i) :
    osBoiler x junk M L step i (M - 1 + (n - i) - m) =
      if n + 1 - x.length ≤ m ∧ m < min (n + 1) M then x.getD (n - m) 0
      else 0 := by
  rcases hi with hi0 | histep
  · -- first block: M - 1 zeros then step fresh samples of x
    subst hi0
    rw [osBoiler, if_pos rfl]
    by_cases hmn : m ≤ n
    · rw [if_neg (by omega), xRead,
        if_pos (by omega : M - 1 + (n - 0) - m - (M - 1) < x.length)]
      rw [if_pos ⟨by omega, by omega⟩]
      congr 1
      omega
    · rw [if_pos (by omega), if_neg (by omega)]
  · -- later blocks: i ≥ step, boiler holds x + i - (M - 1)
    have hine : i ≠ 0 := by omega
    rw [osBoiler, if_neg hine]
    by_cases hfull : i + step ≤ x.length
    · rw [if_pos hfull, xRead,
        if_pos (by omega : i - (M - 1) + (M - 1 + (n - i) - m) < x.length)]
      rw [if_pos ⟨by omega, by omega⟩]
      congr 1
      omega
    · rw [if_neg hfull]
      by_cases hcl : M - 1 + (n - i) - m < x.length + (M - 1) - i
      · rw [if_pos hcl, xRead,
          if_pos (by omega : i - (M - 1) + (M - 1 + (n - i) - m) < x.length)]
        rw [if_pos ⟨by omega, by omega⟩]
        congr 1
        omega
      · rw [if_neg hcl, if_neg (by omega)]

lemma convolve_overlap_save_initialize_eq {xLength hLength : ℕ}
    {hdl : ConvolutionOverlapSaveHandle}
    (hinit : convolve_overlap_save_initialize xLength hLength = some hdl) :
    (hLength < xLength / 2 ∧ 0 < xLength ∧ 0 < hLength) ∧
      hdl = ⟨xLength, hLength, false, osL hLength⟩ := by
  by_cases hc : hLength < xLength / 2 ∧ 0 < xLength ∧ 0 < hLength
  · rw [ convolve_overlap_save_initialize, if_pos hc] at hinit
    exact ⟨hc, (Option.some.inj hinit).symm⟩
  · rw [ convolve_overlap_save_initialize, if_neg hc] at hinit
    cases hinit

/-- The block size always strictly exceeds twice the kernel length:
`L = 2 ^ (log2 M + 2) > 2 M`. -/
lemma osL_gt (M : ℕ) (hM : 0 < M) : 2 * M < osL M := by
  have h1 : M < 2 ^ (Nat.log 2 M).succ := Nat.lt_pow_succ_log_self (by norm_num) M
  have h2 : osL M = 2 * 2 ^ (Nat.log 2 M).succ := by
    rw [osL, shiftLog_eq M 2 hM, Nat.succ_eq_add_one]
    ring
  omega

lemma convolve_simd_false (x h : List ℚ) :
    convolve_simd false x h =
      (List.range (x.length + h.length - 1)).map fun n =>
        innerSum x h n (n + 1 - x.length) (min (n + 1) h.length) :=
  rfl

/-- C2 (amended): for every overlap-save handle built by
` convolve_overlap_save_initialize` for lengths `N > 0`, `M > 0` with
`M < N/2`, and additionally `step = L - (M-1) ≤ N` (so the first block's
unconditional copy of `step` samples stays inside `x`), concatenating the
per-block copied regions of `convolve_overlap_save` reproduces exactly the
`N + M - 1` samples of the direct convolution — the transform backend
modelled as an exact DFT — with no dropped or duplicated samples at block
boundaries, whatever values (`junk`) lie in memory beyond `x`. -/
theorem convolve_overlap_save_matches_direct
    (x h : List ℚ) (junk : ℕ → ℚ) (hdl : ConvolutionOverlapSaveHandle)
    (hinit : convolve_overlap_save_initialize x.length h.length = some hdl)
    (hstep : hdl.L - (h.length - 1) ≤ x.length) :
    convolve_overlap_save hdl x h junk = convolve_simd false x h := by
  obtain ⟨⟨hM2, hx, hh⟩, rfl⟩ := convolve_overlap_save_initialize_eq hinit
  set N := x.length with hN
  set M := h.length with hM
  set L := osL M with hLdef
  set step := L - (M - 1) with hstepdef
  have hLM : 2 * M < L := osL_gt M hh
  have hMstep : M + 2 ≤ step := by omega
  have hLstep : L = step + (M - 1) := by omega
  have hstepN : step ≤ N := by
    simpa using hstep
  rw [convolve_simd_false, convolve_overlap_save]
  apply List.map_congr_left
  intro n hn
  have hnlt : n < N + M - 1 := by
    have := List.mem_range.mp hn
    simpa using this
  -- facts about the covering block i = step * (n / step)
  have hstep0 : 0 < step := by omega
  have hdm := Nat.div_add_mod n step
  have hmodlt := Nat.mod_lt n hstep0
  set i := step * (n / step) with hidef
  have hin : i ≤ n := by omega
  have hlt : n - i < step := by omega
  have hicases : i = 0 ∨ step ≤ i := by
    rcases Nat.eq_zero_or_pos (n / step) with hq | hq
    · left; rw [hidef, hq, Nat.mul_zero]
    · right; rw [hidef]; exact Nat.le_mul_of_pos_right step hq
  have hLne : (L : ℚ) ≠ 0 := Nat.cast_ne_zero.mpr (by omega)
  show (1 / (L : ℚ)) * os_transform_multiply_inverse L
      (osBoiler x junk M L step i) (osPaddedKernel false h M)
      (M - 1 + (n - i)) = innerSum x h n (n + 1 - N) (min (n + 1) M)
  rw [os_transform_multiply_inverse, ← mul_assoc, one_div_mul_cancel hLne,
    one_mul]
  have hML : M ≤ L := by omega
  rw [← Finset.sum_range_add_sum_Ico _ hML]
  have htail : ∑ m ∈ Finset.Ico M L,
      osPaddedKernel false h M m *
        osBoiler x junk M L step i ((M - 1 + (n - i) + L - m) % L) = 0 := by
    apply Finset.sum_eq_zero
    intro m hm
    rw [osPaddedKernel, if_neg (by
      have := Finset.mem_Ico.mp hm
      omega), zero_mul]
  rw [htail, add_zero]
  have hsub : Finset.Ico (n + 1 - N) (min (n + 1) M) ⊆ Finset.range M := by
    intro t ht
    have := Finset.mem_Ico.mp ht
    rw [Finset.mem_range]
    omega
  have hterm : ∀ m ∈ Finset.range M,
      osPaddedKernel false h M m *
        osBoiler x junk M L step i ((M - 1 + (n - i) + L - m) % L) =
      (if m ∈ Finset.Ico (n + 1 - N) (min (n + 1) M) then
        h.getD m 0 * x.getD (n - m) 0 else 0) := by
    intro m hm
    have hmM : m < M := Finset.mem_range.mp hm
    have hmod : (M - 1 + (n - i) + L - m) % L = M - 1 + (n - i) - m := by
      rw [show M - 1 + (n - i) + L - m = L + (M - 1 + (n - i) - m) from by omega,
        Nat.add_mod_left, Nat.mod_eq_of_lt (by omega)]
    rw [hmod, osPaddedKernel, if_pos hmM, osKernel, if_neg Bool.false_ne_true]
    rw [osBoiler_value x junk M L step n i m hh hMstep hLstep hstepN
      (by omega) hmM hin hlt hicases]
    simp only [Finset.mem_Ico]
    by_cases hc : n + 1 - N ≤ m ∧ m < min (n + 1) M
    · rw [if_pos hc, if_pos hc]
    · rw [if_neg hc, if_neg hc, mul_zero]
  rw [Finset.sum_congr rfl hterm, Finset.sum_ite_mem,
    Finset.inter_eq_right.mpr hsub, innerSum]

/-- Witness for C2 (amended) at N = 8, M = 1 (L = 4, step = 4 ≤ 8). -/
theorem convolve_overlap_save_matches_direct_witness :
    convolve_overlap_save ⟨8, 1, false, 4⟩ [1, 2, 3, 4, 5, 6, 7, 8] [2]
        (fun _ => 0) =
      convolve_simd false [1, 2, 3, 4, 5, 6, 7, 8] [2] :=
  convolve_overlap_save_matches_direct [1, 2, 3, 4, 5, 6, 7, 8] [2]
    (fun _ => 0) ⟨8, 1, false, 4⟩ (by decide) (by decide)

/-- Counterexample to C2 as stated: for N = 6, M = 2 the precondition
`0 < M`, `M < N/2` holds and initialization succeeds (L = 8, step = 7),
but step > N, so the first block's copy reads one float past `x`; with
memory beyond `x` holding 1, output sample 6 becomes 1 instead of the
direct convolution's 0. -/
theorem convolve_overlap_save_tail_mismatch :
    convolve_overlap_save_initialize 6 2 = some ⟨6, 2, false, 8⟩ ∧
    (convolve_overlap_save ⟨6, 2, false, 8⟩ [0, 0, 0, 0, 0, 0] [1, 0]
        (fun _ => 1)).getD 6 0 ≠
      (convolve_simd false [0, 0, 0, 0, 0, 0] [1, 0]).getD 6 0 := by
  constructor
  · decide
  · have hlhs : (convolve_overlap_save ⟨6, 2, false, 8⟩ [0, 0, 0, 0, 0, 0]
        [1, 0] (fun _ => 1)).getD 6 0 =
        osOutSample [0, 0, 0, 0, 0, 0] [1, 0] (fun _ => 1) 2 8 false 6 := by
      rw [convolve_overlap_save, List.getD_eq_getElem _ _ (by simp),
        List.getElem_map, List.getElem_range]
    have hrhs : (convolve_simd false [0, 0, 0, 0, 0, 0] [1, 0]).getD 6 0 =
        innerSum [0, 0, 0, 0, 0, 0] [1, 0] 6 1 2 := by
      rw [convolve_simd, List.getD_eq_getElem _ _ (by simp),
        List.getElem_map, List.getElem_range]
      rfl
    rw [hlhs, hrhs]
    norm_num [osOutSample, os_transform_multiply_inverse,
      Finset.sum_range_succ, osPaddedKernel, osKernel, osBoiler, xRead,
      innerSum, Finset.sum_Ico_eq_sum_range]

/-- C7 (code bug): for xLength = 6, hLength = 2 — admissible for the stated
precondition `0 < hLength < xLength/2` — the first block's
`memcpy(boiler + M - 1, x, step * sizeof(float))` copies step = L-(M-1) = 7
floats out of a 6-float array: the output depends on the memory value
(`junk`) that follows `x`, so an out-of-bounds read is performed and used. -/
theorem convolve_overlap_save_reads_out_of_bounds :
    convolve_overlap_save_initialize 6 2 = some ⟨6, 2, false, 8⟩ ∧
    (convolve_overlap_save ⟨6, 2, false, 8⟩ [1, 1, 1, 1, 1, 1] [1, 0]
        (fun _ => 1)).getD 6 0 ≠
      (convolve_overlap_save ⟨6, 2, false, 8⟩ [1, 1, 1, 1, 1, 1] [1, 0]
        (fun _ => 0)).getD 6 0 := by
  constructor
  · decide
  · have hj : ∀ junk : ℕ → ℚ,
        (convolve_overlap_save ⟨6, 2, false, 8⟩ [1, 1, 1, 1, 1, 1] [1, 0]
          junk).getD 6 0 =
        osOutSample [1, 1, 1, 1, 1, 1] [1, 0] junk 2 8 false 6 := by
      intro junk
      rw [convolve_overlap_save, List.getD_eq_getElem _ _ (by simp),
        List.getElem_map, List.getElem_range]
    rw [hj, hj]
    norm_num [osOutSample, os_transform_multiply_inverse,
      Finset.sum_range_succ, osPaddedKernel, osKernel, osBoiler, xRead]

/-! ## Single-shot transform execution: `convolve_fft` (convolve.c lines
289-326), at the concrete transform size M = 4 (x_length = 3, h_length = 2)

The state a transform handle carries between execute calls is the contents
of its two owned buffers `X` and `H` (each `M + 2 = 6` floats).  The
backend is modelled as the exact real DFT of size 4, whose coefficients
are rational, so executions evaluate exactly. -/

/-- Modelled from the spec: the forward real transform plan of size 4 of
the external backend (fftf), an exact DFT.  It reads 4 reals from the
buffer and writes back, in place, the 3 complex coefficients of a
real-input transform stored as `(re0, im0, re1, im1, re2, im2)`;
`im0 = im2 = 0` for real input, `re2` is the top-frequency coefficient. -/
def fftf_forward4 (a : List ℚ) : List ℚ :=
  [a.getD 0 0 + a.getD 1 0 + a.getD 2 0 + a.getD 3 0, 0,
   a.getD 0 0 - a.getD 2 0, a.getD 3 0 - a.getD 1 0,
   a.getD 0 0 - a.getD 1 0 + a.getD 2 0 - a.getD 3 0, 0]

/-- Modelled from the spec: the backward real transform plan of size 4 —
the unnormalized inverse DFT (`backward (forward v) = 4 · v`, hence the
final `1/M` scaling in the code), reading the 6 stored floats and writing
4 reals in place over the first 4. -/
def fftf_backward4 (s : List ℚ) : List ℚ :=
  [s.getD 0 0 + 2 * s.getD 2 0 + s.getD 4 0,
   s.getD 0 0 - 2 * s.getD 3 0 - s.getD 4 0,
   s.getD 0 0 - 2 * s.getD 2 0 + s.getD 4 0,
   s.getD 0 0 + 2 * s.getD 3 0 - s.getD 4 0]

/-- Modelled from the spec: `complex_multiply_na` from
`inc/simd/arithmetic.h` applied by the loop
`for (i = istart; i < M + 2; i += 2)` to each stored `(re, im)` pair:
the pointwise product of the two spectra, written into the first buffer. -/
def complex_multiply_buffers (p q : List ℚ) : List ℚ :=
  [p.getD 0 0 * q.getD 0 0 - p.getD 1 0 * q.getD 1 0,
   p.getD 0 0 * q.getD 1 0 + p.getD 1 0 * q.getD 0 0,
   p.getD 2 0 * q.getD 2 0 - p.getD 3 0 * q.getD 3 0,
   p.getD 2 0 * q.getD 3 0 + p.getD 3 0 * q.getD 2 0,
   p.getD 4 0 * q.getD 4 0 - p.getD 5 0 * q.getD 5 0,
   p.getD 4 0 * q.getD 5 0 + p.getD 5 0 * q.getD 4 0]

/-- The mutable state of a single-shot transform handle: its two owned
buffers (`handle.inputs[0]` and `handle.inputs[1]`). -/
structure ConvolutionFFT4State where
  X : List ℚ
  H : List ℚ
  deriving DecidableEq, Repr

/-- Buffer preparation of ` convolve_fft_initialize` at x_length = 3,
h_length = 2, M = 4: `mallocf(M + 2)` leaves the first x_length
(resp. h_length) floats uninitialized (`jX`, `jH`); `memsetf` zeroes only
the tail. -/
def convolve_fft4_initialize (jX jH : List ℚ) : ConvolutionFFT4State :=
  ⟨[jX.getD 0 0, jX.getD 1 0, jX.getD 2 0, 0, 0, 0],
   [jH.getD 0 0, jH.getD 1 0, 0, 0, 0, 0]⟩

/-- `convolve_fft` (convolve.c lines 289-326) at x_length = 3,
h_length = 2, M = 4: copy `x` into `X[0..3)` and `h` (reversed by
`rmemcpyf` when the reverse flag is set) into `H[0..2)` — the buffer tails
keep whatever the previous call left there — run the batched forward plan
in place on both buffers, pointwise-multiply the spectra into `X`, run the
backward plan in place on `X` (whose last two floats keep the product
values, since the inverse writes only 4 reals), and emit the first
`x_length + h_length - 1 = 4` samples scaled by `1/M`
(`real_multiply_scalar`).  Returns the new buffer state and the result. -/
def convolve_fft4 (s : ConvolutionFFT4State) (reverse : Bool)
    (x h : List ℚ) : ConvolutionFFT4State × List ℚ :=
  let X0 := [x.getD 0 0, x.getD 1 0, x.getD 2 0,
    s.X.getD 3 0, s.X.getD 4 0, s.X.getD 5 0]
  let hL := if reverse then rmemcpyf h 2 else h
  let H0 := [hL.getD 0 0, hL.getD 1 0, s.H.getD 2 0, s.H.getD 3 0,
    s.H.getD 4 0, s.H.getD 5 0]
  let Xf := fftf_forward4 X0
  let Hf := fftf_forward4 H0
  let P := complex_multiply_buffers Xf Hf
  let Y := fftf_backward4 P
  (⟨[Y.getD 0 0, Y.getD 1 0, Y.getD 2 0, Y.getD 3 0, P.getD 4 0, P.getD 5 0],
      Hf⟩,
   [Y.getD 0 0 * (1/4), Y.getD 1 0 * (1/4), Y.getD 2 0 * (1/4),
    Y.getD 3 0 * (1/4)])

/-- C3 (code bug): on a freshly initialized transform handle, executing
x = [0,0,1], h = [0,1] yields the correct convolution [0, 0, 0, 1]; but
`convolve_fft` leaves the inverse-transform output in `X` and the kernel
spectrum in `H`, and the next call only overwrites the first
x_length / h_length floats, so the transform inputs' zero padding is gone:
repeating the identical execute on the same handle returns
[4, -1, -4, 1] — not bit-for-bit (nor even approximately) the same. -/
theorem convolve_fft_repeated_execute_differs :
    (convolve_fft4 ( convolve_fft4_initialize [0, 0, 0] [0, 0]) false
        [0, 0, 1] [0, 1]).2 = [0, 0, 0, 1] ∧
    (convolve_fft4 (convolve_fft4 ( convolve_fft4_initialize [0, 0, 0] [0, 0])
          false [0, 0, 1] [0, 1]).1 false [0, 0, 1] [0, 1]).2 =
      [4, -1, -4, 1] ∧
    (convolve_fft4 (convolve_fft4 ( convolve_fft4_initialize [0, 0, 0] [0, 0])
          false [0, 0, 1] [0, 1]).1 false [0, 0, 1] [0, 1]).2 ≠
      (convolve_fft4 ( convolve_fft4_initialize [0, 0, 0] [0, 0]) false
        [0, 0, 1] [0, 1]).2 := by
  refine ⟨?_, ?_, ?_⟩ <;>
    norm_num [convolve_fft4, convolve_fft4_initialize, fftf_forward4,
      fftf_backward4, complex_multiply_buffers]

/-! ## Single-shot transform execution, generic handle: `convolve_fft`
(convolve.c lines 289-326) at any recorded lengths and transform size,
with the backend modelled — exactly as for overlap-save — by the exact-DFT
composite `os_transform_multiply_inverse` (forward transform of both
buffers, pointwise spectral multiply, unnormalized inverse). -/

/-- The effective contents of buffer `X` (the `handle.M` reals read by the
forward plan): `memcpy(X, x, xLength * sizeof(x[0]))` overwrites the first
`xLength` floats; every float beyond keeps the previous buffer contents
`tailX` (zeros on a fresh handle, stale data after an earlier execute). -/
def fftBufX (x : List ℚ) (xLength : ℕ) (tailX : ℕ → ℚ) (j : ℕ) : ℚ :=
  if j < xLength then x.getD j 0 else tailX j

/-- Buffer `H` likewise: the first `hLength` floats are `h`, copied in
reversed sample order by `rmemcpyf` when the handle's reverse flag is set
(convolve.c lines 302-306); floats beyond keep the previous contents
`tailH`. -/
def fftBufH (reverse : Bool) (h : List ℚ) (hLength : ℕ) (tailH : ℕ → ℚ)
    (j : ℕ) : ℚ :=
  if j < hLength then
    (if reverse then (rmemcpyf h hLength).getD j 0 else h.getD j 0)
  else tailH j

/-- `convolve_fft` (convolve.c lines 289-326): fill `X` and `H`, run the
batched forward plan, pointwise-multiply the spectra into `X`
(`complex_multiply` / `complex_multiply_na` over all `(re, im)` pairs),
run the inverse plan, and emit the first `xLength + hLength - 1` samples
scaled by `1/M` (`real_multiply_scalar`).  With the backend an exact DFT
the composite is `M` times the circular convolution of the two buffers. -/
def convolve_fft (handle : ConvolutionFFTHandle) (x h : List ℚ)
    (tailX tailH : ℕ → ℚ) : List ℚ :=
  (List.range (handle.x_length + handle.h_length - 1)).map fun k =>
    (1 / (handle.M : ℚ)) *
      os_transform_multiply_inverse handle.M
        (fftBufX x handle.x_length tailX)
        (fftBufH handle.reverse h handle.h_length tailH) k

lemma getD_reverse (h : List ℚ) (m : ℕ) (hm : m < h.length) :
    h.reverse.getD m 0 = h.getD (h.length - 1 - m) 0 := by
  rw [List.getD_eq_getElem _ _ (by simpa using hm),
    List.getD_eq_getElem _ _ (by omega), List.getElem_reverse]

/-- `rmemcpyf` over the whole kernel is the sample reversal. -/
lemma rmemcpyf_getD (h : List ℚ) (m : ℕ) (hm : m < h.length) :
    (rmemcpyf h h.length).getD m 0 = h.reverse.getD m 0 := by
  rw [getD_reverse h m hm, rmemcpyf,
    List.getD_eq_getElem _ _ (by simpa using hm), List.getElem_map,
    List.getElem_range]

/-- Loading `h` through `rmemcpyf` fills buffer `H` exactly as loading the
reversed kernel through the plain copy does. -/
lemma fftBufH_reverse (h : List ℚ) (hLength : ℕ) (tailH : ℕ → ℚ)
    (hh : h.length = hLength) :
    fftBufH true h hLength tailH = fftBufH false h.reverse hLength tailH := by
  funext j
  rw [fftBufH, fftBufH]
  by_cases hj : j < hLength
  · rw [if_pos hj, if_pos hj, if_pos rfl, if_neg Bool.false_ne_true]
    subst hh
    exact rmemcpyf_getD h j hj
  · rw [if_neg hj, if_neg hj]

/-- Reversing the copied kernel (`rmemcpyf`) is, through the zero padding,
the same as copying the reversed kernel. -/
lemma osPaddedKernel_reverse (h : List ℚ) (M : ℕ) (hh : h.length = M) :
    osPaddedKernel true h M = osPaddedKernel false h.reverse M := by
  funext m
  rw [osPaddedKernel, osPaddedKernel]
  by_cases hm : m < M
  · rw [if_pos hm, if_pos hm, osKernel, osKernel, if_pos rfl,
      if_neg Bool.false_ne_true, getD_reverse h m (by omega), rmemcpyf,
      List.getD_eq_getElem _ _ (by simpa using hm), List.getElem_map,
      List.getElem_range, hh]
  · rw [if_neg hm, if_neg hm]

/-- C9: on both transform-based variants — every single-shot transform
handle (any recorded lengths, transform size and buffer state) and every
overlap-save handle — executing with the reverse flag set produces the
same output as executing with the flag clear on the sample-reversed
kernel `reverse h`. -/
theorem reverse_flag_equals_reversed_kernel :
    (∀ (Mq xLength hLength : ℕ) (il : List ℕ) (x h : List ℚ)
      (tailX tailH : ℕ → ℚ), h.length = hLength →
      convolve_fft ⟨Mq, xLength, hLength, true, il⟩ x h tailX tailH =
        convolve_fft ⟨Mq, xLength, hLength, false, il⟩ x h.reverse
          tailX tailH) ∧
    (∀ (N M L : ℕ) (x h : List ℚ) (junk : ℕ → ℚ), h.length = M →
      convolve_overlap_save ⟨N, M, true, L⟩ x h junk =
        convolve_overlap_save ⟨N, M, false, L⟩ x h.reverse junk) := by
  constructor
  · intro Mq xLength hLength il x h tailX tailH hh
    rw [convolve_fft, convolve_fft]
    apply List.map_congr_left
    intro k _
    rw [fftBufH_reverse h hLength tailH hh]
  · intro N M L x h junk hh
    rw [convolve_overlap_save, convolve_overlap_save]
    apply List.map_congr_left
    intro n _
    rw [osOutSample, osOutSample, osPaddedKernel_reverse h M hh]

/-- Witness for C9 on concrete handles and kernels of the recorded
lengths. -/
theorem reverse_flag_equals_reversed_kernel_witness :
    convolve_fft ⟨4, 3, 2, true, [6, 6]⟩ [1, 2, 3] [4, 5]
        (fun _ => 0) (fun _ => 0) =
      convolve_fft ⟨4, 3, 2, false, [6, 6]⟩ [1, 2, 3]
        ([4, 5] : List ℚ).reverse (fun _ => 0) (fun _ => 0) ∧
    convolve_overlap_save ⟨8, 1, true, 4⟩ [1, 2, 3, 4, 5, 6, 7, 8] [2]
        (fun _ => 0) =
      convolve_overlap_save ⟨8, 1, false, 4⟩ [1, 2, 3, 4, 5, 6, 7, 8]
        ([2] : List ℚ).reverse (fun _ => 0) :=
  ⟨reverse_flag_equals_reversed_kernel.1 4 3 2 [6, 6] [1, 2, 3] [4, 5]
      (fun _ => 0) (fun _ => 0) rfl,
   reverse_flag_equals_reversed_kernel.2 8 1 4 _ [2] _ rfl⟩

end Convolve
